import Mathlib

/-!
Verification of `generate_source_tree.py`: a tool that scans a project
directory, builds a JSON tree of files and directories, counts lines for
recognized source files, and aggregates totals.

The Python source is shallowly embedded below.  Strings are modelled by
Lean `String` with all operations defined over the underlying `List Char`
(code points), matching Python's code-point string semantics for the ASCII
names involved.  Python's `sorted` (a stable ascending sort by a key) is
modelled by a stable insertion sort with the same comparison.  Fallible
filesystem reads are modelled by `Option` fields: `none` stands for the
raised exception that the Python code catches.
-/

/-- Lowercasing, modelling Python `str.lower()` (code-point wise; `Char.toLower`
agrees with Python on the ASCII names this tool manipulates). -/
def lowerStr (s : String) : String := ⟨s.data.map Char.toLower⟩

/-- Code-point lexicographic strict order on char lists, modelling Python `str.__lt__`. -/
def strLT : List Char → List Char → Bool
  | [], [] => false
  | [], _ :: _ => true
  | _ :: _, [] => false
  | a :: as, b :: bs =>
    if a.toNat < b.toNat then true
    else if b.toNat < a.toNat then false
    else strLT as bs

/-- Code-point lexicographic order on strings, modelling Python `str.__le__`. -/
def strLE (a b : String) : Bool := !(strLT b.data a.data)

/-- `name.startswith('.')` from the Python source. -/
def startsWithDot (name : String) : Bool :=
  match name.data with
  | '.' :: _ => true
  | _ => false

/-- Insert `a` into `l` before the first element `b` with `le a b`.
Helper for the stable sort modelling Python `sorted`. -/
def insertLE (le : α → α → Bool) (a : α) : List α → List α
  | [] => [a]
  | b :: bs => if le a b then a :: b :: bs else b :: insertLE le a bs

/-- Stable ascending sort, modelling Python `sorted(l, key=...)`:
elements comparing equal keep their input order. -/
def sortByLE (le : α → α → Bool) : List α → List α
  | [] => []
  | a :: as => insertLE le a (sortByLE le as)

/-- The index of the last `'.'` in a char list, modelling Python `str.rfind('.')`
(with `none` for the `-1` not-found result). -/
def rfindDot (cs : List Char) : Option Nat :=
  match cs.reverse.findIdx? (fun c => c == '.') with
  | none => none
  | some j => some (cs.length - 1 - j)

/-- `Path(name).suffix` from `pathlib`: with `i` the index of the last dot,
the slice `name[i:]` when `0 < i < len(name) - 1`, else the empty string. -/
def suffix (name : String) : String :=
  match rfindDot name.data with
  | none => ""
  | some i =>
    if 0 < i && i < name.data.length - 1 then ⟨name.data.drop i⟩ else ""

/-- `EXCLUDE_DIRS` from the source: directories to exclude from scanning. -/
def EXCLUDE_DIRS : List String :=
  [".git", ".dart_tool", ".idea", "build", "node_modules",
   "__pycache__", ".venv", "venv", ".gradle", ".pub-cache",
   "coverage", ".flutter-plugins", "android", "ios", "linux",
   "macos", "windows", "ephemeral"]

/-- `EXCLUDE_FILES` from the source: files to exclude. -/
def EXCLUDE_FILES : List String :=
  [".DS_Store", "Thumbs.db", ".flutter-plugins",
   ".flutter-plugins-dependencies", "pubspec.lock",
   ".packages", ".metadata"]

/-- `LINE_COUNT_EXTENSIONS` from the source: extensions to count lines for. -/
def LINE_COUNT_EXTENSIONS : List String :=
  [".dart", ".py", ".js", ".ts", ".html", ".css", ".scss",
   ".json", ".yaml", ".yml", ".md", ".txt", ".sh", ".xml",
   ".gradle", ".toml", ".mojo"]

/-- `LINE_COUNT_FILES` from the source: special files to count lines for. -/
def LINE_COUNT_FILES : List String :=
  ["Makefile", "Dockerfile", "CLAUDE.md", "README.md",
   "pubspec.yaml", "analysis_options.yaml"]

/-- The inline set of binary/compiled extensions in `should_exclude_file`. -/
def BINARY_EXTENSIONS : List String :=
  [".pyc", ".pyo", ".class", ".o", ".so", ".dylib", ".exe"]

/-- A one-code-point string (the unicode icons are given by code point). -/
def iconStr (n : Nat) : String := ⟨[Char.ofNat n]⟩

/-- `FILE_ICONS` from the source: file type icons keyed by extension. -/
def FILE_ICONS : List (String × String) :=
  [(".dart", iconStr 0x1F3AF), (".py", iconStr 0x1F40D), (".mojo", iconStr 0x1F525),
   (".js", iconStr 0x1F4C4), (".ts", iconStr 0x1F4C4), (".html", iconStr 0x1F310),
   (".css", iconStr 0x1F3A8), (".scss", iconStr 0x1F3A8), (".json", iconStr 0x1F4CB),
   (".yaml", iconStr 0x1F4CB), (".yml", iconStr 0x1F4CB), (".md", iconStr 0x1F4DD),
   (".sh", iconStr 0x2328), (".xml", iconStr 0x1F4C4), (".svg", iconStr 0x1F5BC),
   (".png", iconStr 0x1F5BC), (".jpg", iconStr 0x1F5BC), (".gif", iconStr 0x1F5BC)]

/-- `should_exclude_dir`: the name is denylisted or starts with `'.'`. -/
def should_exclude_dir (name : String) : Bool :=
  EXCLUDE_DIRS.contains name || startsWithDot name

/-- `should_exclude_file`: the name is denylisted, or the lowercased suffix
is a binary/compiled extension. -/
def should_exclude_file (name : String) : Bool :=
  EXCLUDE_FILES.contains name || BINARY_EXTENSIONS.contains (lowerStr (suffix name))

/-- The chunks produced by iterating a Python text file: segments ending at
each `'\n'`, plus a final unterminated segment when the text does not end
with a terminator.  `acc` holds the (reversed) chars of the current segment. -/
def pyLinesAux : List Char → List Char → List (List Char)
  | [], acc => if acc.isEmpty then [] else [acc.reverse]
  | c :: rest, acc =>
    if c = '\n' then (c :: acc).reverse :: pyLinesAux rest []
    else pyLinesAux rest (c :: acc)

/-- The lines yielded by iterating a Python text file over the decoded text
(universal-newline translation to `'\n'` already applied). -/
def pyLines (cs : List Char) : List (List Char) := pyLinesAux cs []

/-- `count_lines`: `sum(1 for _ in f)` over the opened text file; any raised
read error (`content = none`) yields 0.  `content` is the decoded text
(`errors='ignore'` decoding and newline translation already applied). -/
def count_lines (content : Option String) : Nat :=
  match content with
  | none => 0
  | some s => (pyLines s.data).length

/-- `should_count_lines`: the file name is in `LINE_COUNT_FILES`, or its
lowercased suffix is in `LINE_COUNT_EXTENSIONS`. -/
def should_count_lines (name : String) : Bool :=
  LINE_COUNT_FILES.contains name || LINE_COUNT_EXTENSIONS.contains (lowerStr (suffix name))

/-- The default icon (page) returned by `FILE_ICONS.get(ext, ...)`. -/
def DEFAULT_ICON : String := iconStr 0x1F4C4

/-- `get_file_icon`: look the lowercased suffix up in `FILE_ICONS`, with a
default of the page icon. -/
def get_file_icon (name : String) : String :=
  match FILE_ICONS.find? (fun p => p.1 == lowerStr (suffix name)) with
  | some p => p.2
  | none => DEFAULT_ICON

/-- The stat/read data of one file on disk: `content` is the decoded text
(`none` models a raised read error), `size` the stat size (`none` models a
raised `OSError` from `stat`). -/
structure FileData where
  name : String
  content : Option String
  size : Option Nat

/-- One filesystem entry: a regular file, a directory with its listed
entries, or any other path type (broken symlink, device file, ...)
for which both `is_file()` and `is_dir()` are false. -/
inductive FSEntry where
  | file (d : FileData)
  | dir (name : String) (children : List FSEntry)
  | other (name : String)

/-- The emitted file node: the dict
`{name, type: 'file', path, size, extension, icon}` plus optional `lines`. -/
structure FileNode where
  name : String
  path : String
  size : Nat
  extension : String
  icon : String
  lines : Option Nat
deriving DecidableEq

/-- An emitted tree node: a file node, or a directory dict
`{name, type: 'directory', path, children}`. -/
inductive Node where
  | file (f : FileNode)
  | dir (name : String) (path : String) (children : List Node)

/-- `p.is_file()` on an entry. -/
def entryIsFile : FSEntry → Bool
  | .file _ => true
  | _ => false

/-- The name of an entry (`p.name`). -/
def entryName : FSEntry → String
  | .file d => d.name
  | .dir n _ => n
  | .other n => n

/-- Comparison of the Python sort keys `(p.is_file(), p.name.lower())`:
tuple order with `False < True` on the first component and code-point
order on the lowercased name. -/
def entryLE (a b : FSEntry) : Bool :=
  if entryIsFile a == entryIsFile b then
    strLE (lowerStr (entryName a)) (lowerStr (entryName b))
  else
    !entryIsFile a && entryIsFile b

/-- `sorted(path.iterdir(), key=lambda p: (p.is_file(), p.name.lower()))`. -/
def sortEntries (cs : List FSEntry) : List FSEntry := sortByLE entryLE cs

/-- The same comparison on (entry, built subtree) pairs, reading only the
entry component. -/
def pairLE (a b : FSEntry × Option Node) : Bool := entryLE a.1 b.1

/-- `str(path.relative_to(root_path.parent))`: the path components joined
with `'/'`. -/
def pathStr : List String → String
  | [] => ""
  | [c] => c
  | c :: c' :: cs => c ++ "/" ++ pathStr (c' :: cs)

mutual
/-- `build_tree(path, root_path)`.  `pref` is the component list of the
containing directory relative to the parent of the scan root, so the node's
`rel_path` is `pathStr (pref ++ [name])`.  For a directory, each listed
entry is paired with its recursively built subtree and the pairs are sorted
by the Python key (sorting the pairs on their entry component is the same
as sorting the entries first, since each subtree is a function of its
entry; the bridge equation `build_tree_dir` below recovers the source's
sort-then-recurse shape). -/
def build_tree : FSEntry → List String → Option Node
  | .file fd, pref =>
    if should_exclude_file fd.name then none
    else
      some (.file ⟨fd.name, pathStr (pref ++ [fd.name]), fd.size.getD 0,
        lowerStr (suffix fd.name), get_file_icon fd.name,
        if should_count_lines fd.name then some (count_lines fd.content) else none⟩)
  | .dir nm cs, pref =>
    if should_exclude_dir nm then none
    else
      let children := (sortByLE pairLE (build_children cs (pref ++ [nm]))).filterMap Prod.snd
      if children.isEmpty then none
      else some (.dir nm (pathStr (pref ++ [nm])) children)
  | .other _, _ => none

/-- Recursively build each child entry, keeping the entry alongside its
result (`None` results are dropped only after sorting). -/
def build_children : List FSEntry → List String → List (FSEntry × Option Node)
  | [], _ => []
  | c :: cs, pref => (c, build_tree c pref) :: build_children cs pref
end

/-- `totals` dict: files, directories, lines, size. -/
structure Totals where
  files : Nat
  directories : Nat
  lines : Nat
  size : Nat
deriving DecidableEq

mutual
/-- The inner `traverse` of `calculate_totals`, with the mutated `totals`
dict threaded through explicitly (named `traverseNode` here because Mathlib
already has a root `traverse`). -/
def traverseNode : Node → Totals → Totals
  | .file f, t => ⟨t.files + 1, t.directories, t.lines + f.lines.getD 0, t.size + f.size⟩
  | .dir _ _ cs, t => traverseList cs ⟨t.files, t.directories + 1, t.lines, t.size⟩

/-- The `for child in node.get('children', [])` loop of `traverse`. -/
def traverseList : List Node → Totals → Totals
  | [], t => t
  | c :: cs, t => traverseList cs (traverseNode c t)
end

/-- `calculate_totals(tree)`: traverse the finished tree starting from the
all-zero totals. -/
def calculate_totals (tree : Node) : Totals := traverseNode tree ⟨0, 0, 0, 0⟩

/-- The exit status of `main` as a function of the scanned root entry:
`1` when `build_tree` returns nothing, else `0` (the remaining work of
`main` -- computing totals and serializing -- always succeeds). -/
def mainExit (root : FSEntry) : Nat :=
  if (build_tree root []).isSome then 0 else 1

mutual
/-- Whether `build_tree` emits a node for this entry: a non-excluded file,
or a non-excluded directory at least one of whose entries is emitted. -/
def included : FSEntry → Bool
  | .file d => !should_exclude_file d.name
  | .dir n cs => !should_exclude_dir n && includedL cs
  | .other _ => false

/-- Whether at least one entry of the list is emitted. -/
def includedL : List FSEntry → Bool
  | [] => false
  | c :: cs => included c || includedL cs
end

mutual
/-- The number of file nodes in a tree. -/
def countFiles : Node → Nat
  | .file _ => 1
  | .dir _ _ cs => countFilesL cs

/-- The number of file nodes in a forest. -/
def countFilesL : List Node → Nat
  | [] => 0
  | c :: cs => countFiles c + countFilesL cs
end

mutual
/-- The number of directory nodes in a tree. -/
def countDirs : Node → Nat
  | .file _ => 0
  | .dir _ _ cs => 1 + countDirsL cs

/-- The number of directory nodes in a forest. -/
def countDirsL : List Node → Nat
  | [] => 0
  | c :: cs => countDirs c + countDirsL cs
end

mutual
/-- The sum of the `lines` fields over all file nodes (absent treated as 0). -/
def sumLines : Node → Nat
  | .file f => f.lines.getD 0
  | .dir _ _ cs => sumLinesL cs

/-- The sum of the `lines` fields over a forest. -/
def sumLinesL : List Node → Nat
  | [] => 0
  | c :: cs => sumLines c + sumLinesL cs
end

mutual
/-- The sum of the `size` fields over all file nodes. -/
def sumSize : Node → Nat
  | .file f => f.size
  | .dir _ _ cs => sumSizeL cs

/-- The sum of the `size` fields over a forest. -/
def sumSizeL : List Node → Nat
  | [] => 0
  | c :: cs => sumSize c + sumSizeL cs
end

mutual
/-- Deep reversal of every children list: a concrete witness that traversal
order does not matter. -/
def revNode : Node → Node
  | .file f => .file f
  | .dir n p cs => .dir n p (revNodeL cs).reverse

/-- Deep reversal, mapped over a forest. -/
def revNodeL : List Node → List Node
  | [] => []
  | c :: cs => revNode c :: revNodeL cs
end

mutual
/-- All file nodes of a tree. -/
def filesOf : Node → List FileNode
  | .file f => [f]
  | .dir _ _ cs => filesOfL cs

/-- All file nodes of a forest. -/
def filesOfL : List Node → List FileNode
  | [] => []
  | c :: cs => filesOf c ++ filesOfL cs
end

mutual
/-- A tree together with all of its descendant nodes. -/
def subtrees : Node → List Node
  | .file f => [.file f]
  | .dir n p cs => .dir n p cs :: subtreesL cs

/-- All nodes of a forest. -/
def subtreesL : List Node → List Node
  | [] => []
  | c :: cs => subtrees c ++ subtreesL cs
end

/-- `is_file` of an emitted node. -/
def nodeIsFile : Node → Bool
  | .file _ => true
  | .dir _ _ _ => false

/-- The `name` field of an emitted node. -/
def nodeName : Node → String
  | .file f => f.name
  | .dir n _ _ => n

/-- 1 when iterating the text yields a final unterminated segment:
the input ends with a non-terminator, or input is exhausted with a
non-empty accumulator. -/
def tailFlag (cs acc : List Char) : Nat :=
  match cs.getLast? with
  | some c => if c = '\n' then 0 else 1
  | none => if acc.isEmpty then 0 else 1

mutual
/-- Replace every file's stat/read results by failures (permission denied,
I/O error), leaving names and structure unchanged. -/
def scrub : FSEntry → FSEntry
  | .file d => .file ⟨d.name, none, none⟩
  | .dir n cs => .dir n (scrubL cs)
  | .other n => .other n

/-- `scrub` mapped over a listing. -/
def scrubL : List FSEntry → List FSEntry
  | [] => []
  | c :: cs => scrub c :: scrubL cs
end

mutual
/-- Every node's `path` field equals the `'/'`-join of the name components
from the scan root's parent down to the node (`pref` being the components
of the containing directory). -/
def pathsOk : List String → Node → Bool
  | pref, .file f => f.path == pathStr (pref ++ [f.name])
  | pref, .dir n p cs => (p == pathStr (pref ++ [n])) && pathsOkL (pref ++ [n]) cs

/-- `pathsOk` over a forest of siblings. -/
def pathsOkL : List String → List Node → Bool
  | _, [] => true
  | pref, c :: cs => pathsOk pref c && pathsOkL pref cs
end

mutual
/-- All `path` fields stored in a tree. -/
def allPaths : Node → List String
  | .file f => [f.path]
  | .dir _ p cs => p :: allPathsL cs

/-- All `path` fields stored in a forest. -/
def allPathsL : List Node → List String
  | [] => []
  | c :: cs => allPaths c ++ allPathsL cs
end

/-- String-level prefix test on the underlying code points. -/
def strHasPfx (p s : String) : Bool := p.data.isPrefixOf s.data

/-- A total description of an entry's identity (type marker and name),
used only to fix one canonical listing order. -/
def encKey : FSEntry → String
  | .file d => "f:" ++ d.name
  | .dir n _ => "d:" ++ n
  | .other n => "o:" ++ n

/-- Comparison by the canonical identity key. -/
def encLE (a b : FSEntry) : Bool := strLE (encKey a) (encKey b)

mutual
/-- The canonical form of a directory tree: every listing sorted by entry
type and name.  Two `FSEntry` values describe the same on-disk content
enumerated in (possibly) different orders exactly when their canonical
forms coincide. -/
def canon : FSEntry → FSEntry
  | .file d => .file d
  | .dir n cs => .dir n (sortByLE encLE (canonL cs))
  | .other n => .other n

/-- `canon` mapped over a listing. -/
def canonL : List FSEntry → List FSEntry
  | [] => []
  | c :: cs => canon c :: canonL cs
end

/-- Whether two entries have the same Python sort key
`(is_file, name.lower())`. -/
def keyEq (a b : FSEntry) : Bool :=
  (entryIsFile a == entryIsFile b) && (lowerStr (entryName a) == lowerStr (entryName b))

/-- No two entries of the list share a sort key. -/
def noDupKeys : List FSEntry → Bool
  | [] => true
  | c :: cs => !(cs.any (keyEq c)) && noDupKeys cs

mutual
/-- In every directory of the tree, the listed entries have pairwise
distinct sort keys. -/
def distinctKeys : FSEntry → Bool
  | .file _ => true
  | .other _ => true
  | .dir _ cs => noDupKeys cs && distinctKeysL cs

/-- `distinctKeys` over a listing. -/
def distinctKeysL : List FSEntry → Bool
  | [] => true
  | c :: cs => distinctKeys c && distinctKeysL cs
end

mutual
/-- The totals contributed by one entry: what `calculate_totals` returns on
the subtree that `build_tree` emits for it (zero when nothing is emitted). -/
def fsTotals : FSEntry → Totals
  | .file d =>
    if should_exclude_file d.name then ⟨0, 0, 0, 0⟩
    else ⟨1, 0, if should_count_lines d.name then count_lines d.content else 0, d.size.getD 0⟩
  | .dir n cs =>
    if should_exclude_dir n then ⟨0, 0, 0, 0⟩
    else
      let sub := fsTotalsL cs
      if includedL cs then ⟨sub.files, sub.directories + 1, sub.lines, sub.size⟩ else sub
  | .other _ => ⟨0, 0, 0, 0⟩

/-- Componentwise sum of `fsTotals` over a listing. -/
def fsTotalsL : List FSEntry → Totals
  | [] => ⟨0, 0, 0, 0⟩
  | c :: cs =>
    ⟨(fsTotals c).files + (fsTotalsL cs).files,
     (fsTotals c).directories + (fsTotalsL cs).directories,
     (fsTotals c).lines + (fsTotalsL cs).lines,
     (fsTotals c).size + (fsTotalsL cs).size⟩
end

/-- The totals of an optional tree, zero when absent. -/
def optTotals : Option Node → Totals
  | none => ⟨0, 0, 0, 0⟩
  | some t => calculate_totals t

/-- The ordering the spec claims for a directory's children: directory
nodes precede file nodes, and nodes of the same type are in ascending
case-insensitive name order. -/
def nodeRel (a b : Node) : Prop :=
  (nodeIsFile a = true → nodeIsFile b = true) ∧
  (nodeIsFile a = nodeIsFile b →
    strLE (lowerStr (nodeName a)) (lowerStr (nodeName b)) = true)

/-- The name of the first child of an emitted directory tree (used to tell
two trees apart). -/
def firstChildName : Option Node → String
  | some (.dir _ _ (c :: _)) => nodeName c
  | _ => ""

def exC2 : FSEntry :=
  .dir "rootC2" [.file ⟨"a.py", some "x\ny\n", some 6⟩, .file ⟨"data.bin", some "zz", some 2⟩]

def exC2tree : Node := (build_tree exC2 []).getD (.dir "" "" [])

def exC3excl : FSEntry := .file ⟨".DS_Store", some "", some 0⟩

def exC3 : FSEntry := .dir "subC3" [exC3excl]

def exC3good : FSEntry := .dir "rootC3" [.file ⟨"k.md", some "hi\n", some 3⟩]

def exC3tree : Node := (build_tree exC3good []).getD (.dir "" "" [])

def exC4 : FSEntry :=
  .dir "rootC4"
    [.file ⟨"b.py", some "1\n", some 2⟩, .file ⟨"A.py", some "2\n", some 2⟩,
     .dir "zdir" [.file ⟨"x.md", some "m\n", some 2⟩],
     .dir "Bdir" [.file ⟨"y.txt", some "t\n", some 2⟩]]

def exC4tree : Node := (build_tree exC4 []).getD (.dir "" "" [])

def exC5w : FileData := ⟨"c5w.py", some "x\ny", some 3⟩

def exC5wnode : FileNode := ⟨"c5w.py", "c5w.py", 3, ".py", iconStr 0x1F40D, some 2⟩

def exC6 : FSEntry := .dir "rootC6" [.file ⟨"u.py", some "abc", some 3⟩]

def exC7 : FSEntry :=
  .dir "proj" [.dir "src" [.file ⟨"m.py", some "p\n", some 2⟩],
    .file ⟨"README.md", some "r\n", some 2⟩]

def exC7tree : Node := (build_tree exC7 []).getD (.dir "" "" [])

def exC8fA : FSEntry := .file ⟨"A.py", some "x", some 1⟩

def exC8fa : FSEntry := .file ⟨"a.py", some "y\n", some 2⟩

def cexC8a : FSEntry := .dir "r" [exC8fA, exC8fa]

def cexC8b : FSEntry := .dir "r" [exC8fa, exC8fA]

def exC8w1 : FSEntry :=
  .dir "w" [.file ⟨"a.py", some "1\n", some 2⟩, .file ⟨"b.py", some "2\n", some 2⟩]

def exC8w2 : FSEntry :=
  .dir "w" [.file ⟨"b.py", some "2\n", some 2⟩, .file ⟨"a.py", some "1\n", some 2⟩]

def exC9 : FSEntry := .dir "rootC9" [.dir "inner" [.file ⟨"f.py", some "q\n", some 2⟩]]

def exC9tree : Node := (build_tree exC9 []).getD (.dir "" "" [])

def exC10 : FileData := ⟨"MAIN.PY", some "print\n", some 6⟩

def exC10node : FileNode := ⟨"MAIN.PY", "MAIN.PY", 6, ".py", iconStr 0x1F40D, some 1⟩

theorem insertLE_perm (le : α → α → Bool) (a : α) (l : List α) :
    List.Perm (insertLE le a l) (a :: l) := by
  induction l with
  | nil => simp [insertLE]
  | cons b bs ih =>
    simp only [insertLE]
    by_cases h : le a b = true
    · simp [h]
    · rw [if_neg h]
      exact (ih.cons b).trans (List.Perm.swap a b bs)

theorem sortByLE_perm (le : α → α → Bool) (l : List α) :
    List.Perm (sortByLE le l) l := by
  induction l with
  | nil => simp [sortByLE]
  | cons a as ih =>
    exact (insertLE_perm le a (sortByLE le as)).trans (ih.cons a)

theorem mem_sortByLE (le : α → α → Bool) (a : α) (l : List α) :
    a ∈ sortByLE le l ↔ a ∈ l :=
  (sortByLE_perm le l).mem_iff

theorem insertLE_map (le : α → α → Bool) (le' : β → β → Bool) (f : α → β)
    (hf : ∀ a b, le' (f a) (f b) = le a b) (a : α) (l : List α) :
    insertLE le' (f a) (l.map f) = (insertLE le a l).map f := by
  induction l with
  | nil => simp [insertLE]
  | cons b bs ih =>
    simp only [List.map_cons, insertLE, hf]
    by_cases h : le a b = true
    · simp [h]
    · simp [h, ih]

theorem sortByLE_map (le : α → α → Bool) (le' : β → β → Bool) (f : α → β)
    (hf : ∀ a b, le' (f a) (f b) = le a b) (l : List α) :
    sortByLE le' (l.map f) = (sortByLE le l).map f := by
  induction l with
  | nil => rfl
  | cons a as ih =>
    simp only [List.map_cons, sortByLE, ih, insertLE_map le le' f hf]

theorem build_children_eq (cs : List FSEntry) (pref : List String) :
    build_children cs pref = cs.map (fun c => (c, build_tree c pref)) := by
  induction cs with
  | nil => rfl
  | cons c rest ih => simp [build_children, ih]

/-- The source-shaped equation for `build_tree` on a directory: sort the
listed entries by the Python key, recurse on each in order, drop the
`None` results, and drop the directory itself when no child survives. -/
theorem build_tree_dir (nm : String) (cs : List FSEntry) (pref : List String) :
    build_tree (.dir nm cs) pref =
      if should_exclude_dir nm then none
      else
        let children := (sortEntries cs).filterMap (fun c => build_tree c (pref ++ [nm]))
        if children.isEmpty then none
        else some (.dir nm (pathStr (pref ++ [nm])) children) := by
  rw [build_tree, build_children_eq,
    sortByLE_map entryLE pairLE (fun c => (c, build_tree c (pref ++ [nm]))) (fun _ _ => rfl),
    List.filterMap_map]
  rfl

theorem build_tree_file (fd : FileData) (pref : List String) :
    build_tree (.file fd) pref =
      if should_exclude_file fd.name then none
      else
        some (.file ⟨fd.name, pathStr (pref ++ [fd.name]), fd.size.getD 0,
          lowerStr (suffix fd.name), get_file_icon fd.name,
          if should_count_lines fd.name then some (count_lines fd.content) else none⟩) := by
  rw [build_tree]

theorem build_tree_other (n : String) (pref : List String) :
    build_tree (.other n) pref = none := by
  rw [build_tree]

/-- Strong induction over `FSEntry` with membership access to directory children. -/
theorem fsEntryRecMem {P : FSEntry → Prop}
    (hfile : ∀ d, P (.file d))
    (hother : ∀ n, P (.other n))
    (hdir : ∀ n cs, (∀ c ∈ cs, P c) → P (.dir n cs)) :
    ∀ e, P e
  | .file d => hfile d
  | .other n => hother n
  | .dir n cs => hdir n cs (fun c hc => fsEntryRecMem hfile hother hdir c)
termination_by e => sizeOf e
decreasing_by
  have := List.sizeOf_lt_of_mem hc
  simp only [FSEntry.dir.sizeOf_spec]
  omega

/-- Strong induction over `Node` with membership access to directory children. -/
theorem nodeRecMem {P : Node → Prop}
    (hfile : ∀ f, P (.file f))
    (hdir : ∀ n p cs, (∀ c ∈ cs, P c) → P (.dir n p cs)) :
    ∀ t, P t
  | .file f => hfile f
  | .dir n p cs => hdir n p cs (fun c hc => nodeRecMem hfile hdir c)
termination_by t => sizeOf t
decreasing_by
  have := List.sizeOf_lt_of_mem hc
  simp only [Node.dir.sizeOf_spec]
  omega

theorem any_of_perm {l₁ l₂ : List α} (h : List.Perm l₁ l₂) (p : α → Bool) :
    l₁.any p = l₂.any p := by
  cases h1 : l₁.any p
  · cases h2 : l₂.any p
    · rfl
    · obtain ⟨x, hx, hpx⟩ := List.any_eq_true.mp h2
      have : l₁.any p = true := List.any_eq_true.mpr ⟨x, h.mem_iff.mpr hx, hpx⟩
      rw [h1] at this; exact this
  · obtain ⟨x, hx, hpx⟩ := List.any_eq_true.mp h1
    exact (List.any_eq_true.mpr ⟨x, h.mem_iff.mp hx, hpx⟩).symm

theorem filterMap_isEmpty (f : α → Option β) (l : List α) :
    (l.filterMap f).isEmpty = !l.any (fun x => (f x).isSome) := by
  induction l with
  | nil => rfl
  | cons a as ih => cases h : f a <;> simp [List.filterMap_cons, h, ih]

theorem any_congr_mem {l : List α} {p q : α → Bool} (h : ∀ x ∈ l, p x = q x) :
    l.any p = l.any q := by
  induction l with
  | nil => rfl
  | cons a as ih =>
    simp only [List.any_cons, h a (List.mem_cons_self a as),
      ih (fun x hx => h x (List.mem_cons_of_mem a hx))]

theorem includedL_eq_any (cs : List FSEntry) : includedL cs = cs.any included := by
  induction cs with
  | nil => rfl
  | cons c rest ih => simp [includedL, ih]

/-- `build_tree` emits a node exactly when the entry is `included`. -/
theorem build_tree_isSome (e : FSEntry) :
    ∀ pref, (build_tree e pref).isSome = included e := by
  induction e using fsEntryRecMem with
  | hfile d =>
    intro pref
    rw [build_tree_file, included]
    by_cases h : should_exclude_file d.name = true <;> simp [h]
  | hother n => intro pref; rw [build_tree_other]; rfl
  | hdir n cs ih =>
    intro pref
    rw [build_tree_dir, included]
    by_cases hex : should_exclude_dir n = true
    · simp [hex]
    · simp only [hex, if_false, Bool.not_false, Bool.true_and]
      have h1 : ((sortEntries cs).filterMap (fun c => build_tree c (pref ++ [n]))).isEmpty
          = !((sortEntries cs).any (fun x => (build_tree x (pref ++ [n])).isSome)) :=
        filterMap_isEmpty _ _
      have h2 : (sortEntries cs).any (fun x => (build_tree x (pref ++ [n])).isSome)
          = (sortEntries cs).any included :=
        any_congr_mem (fun x hx => ih x ((mem_sortByLE entryLE x cs).mp hx) (pref ++ [n]))
      have h3 : (sortEntries cs).any included = includedL cs := by
        rw [includedL_eq_any]
        exact any_of_perm (sortByLE_perm entryLE cs) included
      rw [h1, h2, h3]
      cases includedL cs <;> simp

mutual
theorem traverse_spec : ∀ (t : Node) (acc : Totals),
    traverseNode t acc = ⟨acc.files + countFiles t, acc.directories + countDirs t,
      acc.lines + sumLines t, acc.size + sumSize t⟩
  | .file f, acc => by
    simp [traverseNode, countFiles, countDirs, sumLines, sumSize]
  | .dir n p cs, acc => by
    rw [traverseNode, traverseList_spec cs]
    simp [countFiles, countDirs, sumLines, sumSize, Totals.mk.injEq]
    omega

theorem traverseList_spec : ∀ (l : List Node) (acc : Totals),
    traverseList l acc = ⟨acc.files + countFilesL l, acc.directories + countDirsL l,
      acc.lines + sumLinesL l, acc.size + sumSizeL l⟩
  | [], acc => by simp [traverseList, countFilesL, countDirsL, sumLinesL, sumSizeL]
  | c :: cs, acc => by
    rw [traverseList, traverse_spec c, traverseList_spec cs]
    simp [countFilesL, countDirsL, sumLinesL, sumSizeL, Totals.mk.injEq]
    omega
end

/-- `calculate_totals` computes exactly the four summations over the tree. -/
theorem calculate_totals_spec (t : Node) :
    calculate_totals t = ⟨countFiles t, countDirs t, sumLines t, sumSize t⟩ := by
  rw [calculate_totals, traverse_spec]
  simp

theorem countFilesL_eq_sum (l : List Node) : countFilesL l = (l.map countFiles).sum := by
  induction l with
  | nil => rfl
  | cons c cs ih => simp [countFilesL, ih]

theorem countDirsL_eq_sum (l : List Node) : countDirsL l = (l.map countDirs).sum := by
  induction l with
  | nil => rfl
  | cons c cs ih => simp [countDirsL, ih]

theorem sumLinesL_eq_sum (l : List Node) : sumLinesL l = (l.map sumLines).sum := by
  induction l with
  | nil => rfl
  | cons c cs ih => simp [sumLinesL, ih]

theorem sumSizeL_eq_sum (l : List Node) : sumSizeL l = (l.map sumSize).sum := by
  induction l with
  | nil => rfl
  | cons c cs ih => simp [sumSizeL, ih]

theorem revNodeL_map (l : List Node) : revNodeL l = l.map revNode := by
  induction l with
  | nil => rfl
  | cons c cs ih => simp [revNodeL, ih]

mutual
theorem measures_rev : ∀ t : Node,
    countFiles (revNode t) = countFiles t ∧ countDirs (revNode t) = countDirs t ∧
    sumLines (revNode t) = sumLines t ∧ sumSize (revNode t) = sumSize t
  | .file f => by simp [revNode]
  | .dir n p cs => by
    have h := measuresL_rev cs
    have hperm : List.Perm (revNodeL cs).reverse (revNodeL cs) := List.reverse_perm _
    refine ⟨?_, ?_, ?_, ?_⟩
    · rw [revNode, countFiles, countFiles, countFilesL_eq_sum, countFilesL_eq_sum,
        (hperm.map countFiles).sum_eq, ← countFilesL_eq_sum, ← countFilesL_eq_sum, h.1]
    · rw [revNode, countDirs, countDirs, countDirsL_eq_sum, countDirsL_eq_sum,
        (hperm.map countDirs).sum_eq, ← countDirsL_eq_sum, ← countDirsL_eq_sum, h.2.1]
    · rw [revNode, sumLines, sumLines, sumLinesL_eq_sum, sumLinesL_eq_sum,
        (hperm.map sumLines).sum_eq, ← sumLinesL_eq_sum, ← sumLinesL_eq_sum, h.2.2.1]
    · rw [revNode, sumSize, sumSize, sumSizeL_eq_sum, sumSizeL_eq_sum,
        (hperm.map sumSize).sum_eq, ← sumSizeL_eq_sum, ← sumSizeL_eq_sum, h.2.2.2]

theorem measuresL_rev : ∀ l : List Node,
    countFilesL (revNodeL l) = countFilesL l ∧ countDirsL (revNodeL l) = countDirsL l ∧
    sumLinesL (revNodeL l) = sumLinesL l ∧ sumSizeL (revNodeL l) = sumSizeL l
  | [] => by simp [revNodeL]
  | c :: cs => by
    have h1 := measures_rev c
    have h2 := measuresL_rev cs
    simp only [revNodeL, countFilesL, countDirsL, sumLinesL, sumSizeL]
    omega
end

theorem mem_filesOfL {f : FileNode} {l : List Node} :
    f ∈ filesOfL l ↔ ∃ c ∈ l, f ∈ filesOf c := by
  induction l with
  | nil => simp [filesOfL]
  | cons c cs ih => simp [filesOfL, ih]

theorem mem_subtreesL {s : Node} {l : List Node} :
    s ∈ subtreesL l ↔ ∃ c ∈ l, s ∈ subtrees c := by
  induction l with
  | nil => simp [subtreesL]
  | cons c cs ih => simp [subtreesL, ih]

theorem self_mem_subtrees (t : Node) : t ∈ subtrees t := by
  cases t <;> simp [subtrees]

/-- Inversion: a `some file-node` result comes from a non-excluded file
entry, and the node's fields are determined by that entry. -/
theorem build_file_inv {e : FSEntry} {pref : List String} {f : FileNode}
    (h : build_tree e pref = some (.file f)) :
    ∃ d, e = .file d ∧ should_exclude_file d.name = false ∧
      f = ⟨d.name, pathStr (pref ++ [d.name]), d.size.getD 0,
        lowerStr (suffix d.name), get_file_icon d.name,
        if should_count_lines d.name then some (count_lines d.content) else none⟩ := by
  cases e with
  | file d =>
    rw [build_tree_file] at h
    by_cases hex : should_exclude_file d.name = true
    · rw [if_pos hex] at h; exact absurd h (by simp)
    · rw [if_neg hex] at h
      refine ⟨d, rfl, by simpa using hex, ?_⟩
      have := Option.some.inj h
      exact (Node.file.inj this).symm
  | dir nm cs =>
    rw [build_tree_dir] at h
    by_cases hex : should_exclude_dir nm = true
    · rw [if_pos hex] at h; exact absurd h (by simp)
    · rw [if_neg hex] at h
      simp only at h
      by_cases hemp : ((sortEntries cs).filterMap (fun c => build_tree c (pref ++ [nm]))).isEmpty = true
      · rw [if_pos hemp] at h; exact absurd h (by simp)
      · rw [if_neg hemp] at h
        exact absurd (Option.some.inj h) (by simp)
  | other n => rw [build_tree_other] at h; exact absurd h (by simp)

/-- Inversion: a `some directory-node` result comes from a non-excluded
directory entry with at least one surviving child, and the children list is
the sorted-filtered recursion over its entries. -/
theorem build_dir_inv {e : FSEntry} {pref : List String} {nm p : String}
    {children : List Node}
    (h : build_tree e pref = some (.dir nm p children)) :
    ∃ cs, e = .dir nm cs ∧ should_exclude_dir nm = false ∧
      children = (sortEntries cs).filterMap (fun c => build_tree c (pref ++ [nm])) ∧
      children ≠ [] ∧ p = pathStr (pref ++ [nm]) := by
  cases e with
  | file d =>
    rw [build_tree_file] at h
    by_cases hex : should_exclude_file d.name = true
    · rw [if_pos hex] at h; exact absurd h (by simp)
    · rw [if_neg hex] at h; exact absurd (Option.some.inj h) (by simp)
  | dir nm' cs =>
    rw [build_tree_dir] at h
    by_cases hex : should_exclude_dir nm' = true
    · rw [if_pos hex] at h; exact absurd h (by simp)
    · rw [if_neg hex] at h
      simp only at h
      by_cases hemp : ((sortEntries cs).filterMap (fun c => build_tree c (pref ++ [nm']))).isEmpty = true
      · rw [if_pos hemp] at h; exact absurd h (by simp)
      · rw [if_neg hemp] at h
        have h2 := Option.some.inj h
        obtain ⟨hn, hp, hc⟩ := Node.dir.inj h2
        subst hn
        refine ⟨cs, rfl, by simpa using hex, hc.symm, ?_, hp.symm⟩
        rw [← hc]
        intro hnil
        rw [hnil] at hemp
        exact hemp rfl
  | other n => rw [build_tree_other] at h; exact absurd h (by simp)

/-- Every node of an emitted tree is itself the result of `build_tree` on
some entry and path. -/
theorem emitted_subtree {e : FSEntry} :
    ∀ {pref : List String} {t : Node}, build_tree e pref = some t →
      ∀ s ∈ subtrees t, ∃ e' pref', build_tree e' pref' = some s := by
  induction e using fsEntryRecMem with
  | hfile d =>
    intro pref t h s hs
    have hshape : ∃ f, t = Node.file f := by
      rw [build_tree_file] at h
      by_cases hex : should_exclude_file d.name = true
      · rw [if_pos hex] at h; exact absurd h (by simp)
      · rw [if_neg hex] at h; exact ⟨_, (Option.some.inj h).symm⟩
    obtain ⟨f, rfl⟩ := hshape
    rw [subtrees] at hs
    simp only [List.mem_singleton] at hs
    subst hs
    exact ⟨.file d, pref, h⟩
  | hother n =>
    intro pref t h s hs
    rw [build_tree_other] at h
    exact absurd h (by simp)
  | hdir n cs ih =>
    intro pref t h s hs
    have hshape : ∃ nm p children, t = Node.dir nm p children := by
      rw [build_tree_dir] at h
      by_cases hex : should_exclude_dir n = true
      · rw [if_pos hex] at h; exact absurd h (by simp)
      · rw [if_neg hex] at h
        simp only at h
        by_cases hemp : ((sortEntries cs).filterMap
            (fun c => build_tree c (pref ++ [n]))).isEmpty = true
        · rw [if_pos hemp] at h; exact absurd h (by simp)
        · rw [if_neg hemp] at h; exact ⟨_, _, _, (Option.some.inj h).symm⟩
    obtain ⟨nm, p, children, rfl⟩ := hshape
    obtain ⟨cs', heq, hex, hch, hne, hp⟩ := build_dir_inv h
    obtain ⟨rfl, rfl⟩ := FSEntry.dir.inj heq
    rw [subtrees] at hs
    rcases List.mem_cons.mp hs with rfl | hs'
    · exact ⟨.dir n cs, pref, h⟩
    · obtain ⟨c, hc, hsc⟩ := mem_subtreesL.mp hs'
      rw [hch] at hc
      obtain ⟨x, hx, hbx⟩ := List.mem_filterMap.mp hc
      exact ih x ((mem_sortByLE entryLE x cs).mp hx) hbx s hsc

theorem char_eq_of_toNat_eq {a b : Char} (h : a.toNat = b.toNat) : a = b := by
  have h3 : a.val.toBitVec = b.val.toBitVec := BitVec.eq_of_toNat_eq h
  exact Char.ext (congrArg UInt32.mk h3)

theorem strLT_irrefl : ∀ cs, strLT cs cs = false := by
  intro cs
  induction cs with
  | nil => rfl
  | cons a as ih => simp [strLT, ih]

theorem strLT_trans :
    ∀ as bs cs, strLT as bs = true → strLT bs cs = true → strLT as cs = true := by
  intro as
  induction as with
  | nil =>
    intro bs cs h1 h2
    cases bs with
    | nil => simp [strLT] at h1
    | cons b bs' =>
      cases cs with
      | nil => simp [strLT] at h2
      | cons c cs' => simp [strLT]
  | cons a as' ih =>
    intro bs cs h1 h2
    cases bs with
    | nil => simp [strLT] at h1
    | cons b bs' =>
      cases cs with
      | nil => simp [strLT] at h2
      | cons c cs' =>
        rw [strLT] at h1 h2 ⊢
        by_cases hab : a.toNat < b.toNat
        · rw [if_pos hab] at h1
          by_cases hbc : b.toNat < c.toNat
          · rw [if_pos (by omega : a.toNat < c.toNat)]
          · rw [if_neg hbc] at h2
            by_cases hcb : c.toNat < b.toNat
            · rw [if_pos hcb] at h2; simp at h2
            · rw [if_pos (by omega : a.toNat < c.toNat)]
        · rw [if_neg hab] at h1
          by_cases hba : b.toNat < a.toNat
          · rw [if_pos hba] at h1; simp at h1
          · rw [if_neg hba] at h1
            by_cases hbc : b.toNat < c.toNat
            · rw [if_pos (by omega : a.toNat < c.toNat)]
            · rw [if_neg hbc] at h2
              by_cases hcb : c.toNat < b.toNat
              · rw [if_pos hcb] at h2; simp at h2
              · rw [if_neg hcb] at h2
                rw [if_neg (by omega : ¬ a.toNat < c.toNat),
                  if_neg (by omega : ¬ c.toNat < a.toNat)]
                exact ih bs' cs' h1 h2

theorem strLT_tri : ∀ as bs, strLT as bs = true ∨ strLT bs as = true ∨ as = bs := by
  intro as
  induction as with
  | nil =>
    intro bs
    cases bs with
    | nil => right; right; rfl
    | cons b bs' => left; simp [strLT]
  | cons a as' ih =>
    intro bs
    cases bs with
    | nil => right; left; simp [strLT]
    | cons b bs' =>
      by_cases hab : a.toNat < b.toNat
      · left; rw [strLT, if_pos hab]
      · by_cases hba : b.toNat < a.toNat
        · right; left; rw [strLT, if_pos hba]
        · have heq : a = b := char_eq_of_toNat_eq (by omega)
          subst heq
          rcases ih bs' with h | h | h
          · left; rw [strLT, if_neg hab, if_neg hab]; exact h
          · right; left; rw [strLT, if_neg hab, if_neg hab]; exact h
          · right; right; rw [h]

theorem strLE_total (a b : String) : (strLE a b || strLE b a) = true := by
  rw [strLE, strLE]
  by_cases h1 : strLT b.data a.data = true
  · by_cases h2 : strLT a.data b.data = true
    · have := strLT_trans _ _ _ h1 h2
      rw [strLT_irrefl] at this
      simp at this
    · simp [h2]
  · simp [h1]

theorem strLE_trans {a b c : String} (h1 : strLE a b = true) (h2 : strLE b c = true) :
    strLE a c = true := by
  rw [strLE] at h1 h2 ⊢
  simp only [Bool.not_eq_true'] at h1 h2 ⊢
  cases hca : strLT c.data a.data with
  | false => rfl
  | true =>
    rcases strLT_tri c.data b.data with h | h | h
    · rw [h] at h2; exact absurd h2 (by simp)
    · have h3 := strLT_trans _ _ _ h hca
      rw [h3] at h1; exact absurd h1 (by simp)
    · rw [h] at hca
      rw [h1] at hca; exact absurd hca (by simp)

theorem entryLE_total (a b : FSEntry) : (entryLE a b || entryLE b a) = true := by
  rw [entryLE, entryLE]
  cases ha : entryIsFile a <;> cases hb : entryIsFile b <;>
    simp [strLE_total]

theorem entryLE_trans {a b c : FSEntry} (h1 : entryLE a b = true)
    (h2 : entryLE b c = true) : entryLE a c = true := by
  rw [entryLE] at h1 h2 ⊢
  cases ha : entryIsFile a <;> cases hb : entryIsFile b <;> cases hc : entryIsFile c <;>
    rw [ha, hb] at h1 <;> rw [hb, hc] at h2 <;> simp_all <;>
    exact strLE_trans h1 h2

theorem mem_insertLE (le : α → α → Bool) (a x : α) (l : List α) :
    x ∈ insertLE le a l ↔ x = a ∨ x ∈ l := by
  rw [(insertLE_perm le a l).mem_iff]
  simp

theorem pairwise_insertLE (le : α → α → Bool)
    (htrans : ∀ a b c, le a b = true → le b c = true → le a c = true)
    (htotal : ∀ a b, (le a b || le b a) = true) (a : α) (l : List α)
    (hl : l.Pairwise (fun x y => le x y = true)) :
    (insertLE le a l).Pairwise (fun x y => le x y = true) := by
  induction l with
  | nil => simp [insertLE]
  | cons b bs ih =>
    rw [insertLE]
    rcases List.pairwise_cons.mp hl with ⟨hb, hbs⟩
    by_cases h : le a b = true
    · rw [if_pos h]
      refine List.pairwise_cons.mpr ⟨?_, hl⟩
      intro x hx
      rcases List.mem_cons.mp hx with rfl | hx'
      · exact h
      · exact htrans a b x h (hb x hx')
    · rw [if_neg h]
      refine List.pairwise_cons.mpr ⟨?_, ih hbs⟩
      intro x hx
      rcases (mem_insertLE le a x bs).mp hx with heq | hx'
      · subst heq
        have htot := htotal x b
        simp only [Bool.or_eq_true] at htot
        rcases htot with h' | h'
        · exact absurd h' h
        · exact h'
      · exact hb x hx'

theorem pairwise_sortByLE (le : α → α → Bool)
    (htrans : ∀ a b c, le a b = true → le b c = true → le a c = true)
    (htotal : ∀ a b, (le a b || le b a) = true) (l : List α) :
    (sortByLE le l).Pairwise (fun x y => le x y = true) := by
  induction l with
  | nil => simp [sortByLE]
  | cons a as ih => exact pairwise_insertLE le htrans htotal a _ ih

theorem pairwise_filterMap {R : α → α → Prop} {S : β → β → Prop} (f : α → Option β)
    (h : ∀ a b x y, R a b → f a = some x → f b = some y → S x y) :
    ∀ {l : List α}, l.Pairwise R → (l.filterMap f).Pairwise S := by
  intro l hl
  induction hl with
  | nil => simp
  | @cons a l' hhead htail ih =>
    rw [List.filterMap_cons]
    cases hf : f a with
    | none => exact ih
    | some x =>
      refine List.pairwise_cons.mpr ⟨?_, ih⟩
      intro y hy
      obtain ⟨b, hb, hfb⟩ := List.mem_filterMap.mp hy
      exact h a b x y (hhead b hb) hf hfb

theorem countFiles_le_of_mem {c : Node} {l : List Node} (h : c ∈ l) :
    countFiles c ≤ countFilesL l := by
  induction l with
  | nil => simp at h
  | cons a as ih =>
    rw [countFilesL]
    rcases List.mem_cons.mp h with rfl | h'
    · omega
    · have := ih h'; omega

/-- Every emitted tree contains at least one file node. -/
theorem countFiles_pos {e : FSEntry} :
    ∀ {pref : List String} {t : Node}, build_tree e pref = some t → 1 ≤ countFiles t := by
  induction e using fsEntryRecMem with
  | hfile d =>
    intro pref t h
    rw [build_tree_file] at h
    by_cases hex : should_exclude_file d.name = true
    · rw [if_pos hex] at h; exact absurd h (by simp)
    · rw [if_neg hex] at h
      cases Option.some.inj h
      rw [countFiles]
  | hother n =>
    intro pref t h
    rw [build_tree_other] at h
    exact absurd h (by simp)
  | hdir n cs ih =>
    intro pref t h
    have hshape : ∃ nm p children, t = Node.dir nm p children := by
      rw [build_tree_dir] at h
      by_cases hex : should_exclude_dir n = true
      · rw [if_pos hex] at h; exact absurd h (by simp)
      · rw [if_neg hex] at h
        simp only at h
        by_cases hemp : ((sortEntries cs).filterMap
            (fun c => build_tree c (pref ++ [n]))).isEmpty = true
        · rw [if_pos hemp] at h; exact absurd h (by simp)
        · rw [if_neg hemp] at h; exact ⟨_, _, _, (Option.some.inj h).symm⟩
    obtain ⟨nm, p, children, rfl⟩ := hshape
    obtain ⟨cs', heq, hex, hch, hne, hp⟩ := build_dir_inv h
    obtain ⟨rfl, rfl⟩ := FSEntry.dir.inj heq
    obtain ⟨c, hc⟩ := List.exists_mem_of_ne_nil children hne
    have hcle := countFiles_le_of_mem hc
    rw [hch] at hc
    obtain ⟨x, hx, hbx⟩ := List.mem_filterMap.mp hc
    have := ih x ((mem_sortByLE entryLE x cs).mp hx) hbx
    rw [countFiles]
    omega

/-- A file node is among a tree's file nodes iff it is one of its subtrees. -/
theorem file_mem_subtrees {t : Node} :
    ∀ {f : FileNode}, f ∈ filesOf t ↔ Node.file f ∈ subtrees t := by
  induction t using nodeRecMem with
  | hfile g => intro f; simp [filesOf, subtrees]
  | hdir n p cs ih =>
    intro f
    rw [filesOf, subtrees]
    simp only [List.mem_cons]
    constructor
    · intro h
      obtain ⟨c, hc, hfc⟩ := mem_filesOfL.mp h
      exact Or.inr (mem_subtreesL.mpr ⟨c, hc, (ih c hc).mp hfc⟩)
    · intro h
      rcases h with heq | h'
      · exact absurd heq (by simp)
      · obtain ⟨c, hc, hfc⟩ := mem_subtreesL.mp h'
        exact mem_filesOfL.mpr ⟨c, hc, (ih c hc).mpr hfc⟩

/-- `build_tree` preserves the sort key: the emitted node has the entry's
type and name. -/
theorem build_key {x : FSEntry} {pref : List String} {nx : Node}
    (h : build_tree x pref = some nx) :
    nodeIsFile nx = entryIsFile x ∧ nodeName nx = entryName x := by
  cases x with
  | file d =>
    rw [build_tree_file] at h
    by_cases hex : should_exclude_file d.name = true
    · rw [if_pos hex] at h; exact absurd h (by simp)
    · rw [if_neg hex] at h
      cases Option.some.inj h
      exact ⟨rfl, rfl⟩
  | dir nm cs =>
    rw [build_tree_dir] at h
    by_cases hex : should_exclude_dir nm = true
    · rw [if_pos hex] at h; exact absurd h (by simp)
    · rw [if_neg hex] at h
      simp only at h
      by_cases hemp : ((sortEntries cs).filterMap
          (fun c => build_tree c (pref ++ [nm]))).isEmpty = true
      · rw [if_pos hemp] at h; exact absurd h (by simp)
      · rw [if_neg hemp] at h
        cases Option.some.inj h
        exact ⟨rfl, rfl⟩
  | other n => rw [build_tree_other] at h; exact absurd h (by simp)

theorem tailFlag_cons_cons (c r : Char) (rs : List Char) (acc acc' : List Char) :
    tailFlag (c :: r :: rs) acc = tailFlag (r :: rs) acc' := by
  rw [tailFlag, tailFlag, List.getLast?_cons_cons]
  cases h : (r :: rs).getLast? with
  | none => exact absurd h (by simp)
  | some x => rfl

theorem pyLinesAux_length :
    ∀ (cs acc : List Char), (pyLinesAux cs acc).length = cs.count '\n' + tailFlag cs acc := by
  intro cs
  induction cs with
  | nil =>
    intro acc
    rw [pyLinesAux, tailFlag]
    by_cases h : acc.isEmpty = true <;> simp [h]
  | cons c rest ih =>
    intro acc
    rw [pyLinesAux]
    by_cases hc : c = '\n'
    · rw [if_pos hc]
      subst hc
      rw [List.length_cons, ih []]
      cases rest with
      | nil => simp [tailFlag, List.count_cons]
      | cons r rs =>
        rw [tailFlag_cons_cons _ r rs acc []]
        simp [List.count_cons]
        omega
    · rw [if_neg hc]
      rw [ih (c :: acc)]
      cases rest with
      | nil => simp [tailFlag, List.count_cons, hc]
      | cons r rs =>
        rw [tailFlag_cons_cons c r rs acc (c :: acc)]
        simp [List.count_cons, hc]

/-- Closed form for `count_lines` on readable content: the number of line
terminators, plus one for a final unterminated segment of a non-empty text. -/
theorem count_lines_eq (s : String) :
    count_lines (some s) =
      s.data.count '\n' +
        (match s.data.getLast? with
         | some c => if c = '\n' then 0 else 1
         | none => 0) := by
  rw [count_lines, pyLines, pyLinesAux_length, tailFlag]
  cases h : s.data.getLast? with
  | none => simp
  | some c => rfl

mutual
theorem included_scrub : ∀ e : FSEntry, included (scrub e) = included e
  | .file d => by rw [scrub, included, included]
  | .dir n cs => by rw [scrub, included, included, includedL_scrub cs]
  | .other n => by rw [scrub]

theorem includedL_scrub : ∀ cs : List FSEntry, includedL (scrubL cs) = includedL cs
  | [] => by rw [scrubL]
  | c :: cs => by
    rw [scrubL, includedL, includedL, included_scrub c, includedL_scrub cs]
end

/-- Read and stat failures never change the exit status. -/
theorem mainExit_scrub (e : FSEntry) : mainExit (scrub e) = mainExit e := by
  rw [mainExit, mainExit, build_tree_isSome, build_tree_isSome, included_scrub]

theorem pathsOkL_eq_all (pref : List String) (l : List Node) :
    pathsOkL pref l = l.all (pathsOk pref) := by
  induction l with
  | nil => rfl
  | cons c cs ih => rw [pathsOkL, List.all_cons, ih]

theorem mem_allPathsL {q : String} {l : List Node} :
    q ∈ allPathsL l ↔ ∃ c ∈ l, q ∈ allPaths c := by
  induction l with
  | nil => simp [allPathsL]
  | cons c cs ih => simp [allPathsL, ih]

/-- `build_tree` stores paths relative to the parent of the scan root. -/
theorem build_pathsOk {e : FSEntry} :
    ∀ {pref : List String} {t : Node}, build_tree e pref = some t →
      pathsOk pref t = true := by
  induction e using fsEntryRecMem with
  | hfile d =>
    intro pref t h
    rw [build_tree_file] at h
    by_cases hex : should_exclude_file d.name = true
    · rw [if_pos hex] at h; exact absurd h (by simp)
    · rw [if_neg hex] at h
      cases Option.some.inj h
      rw [pathsOk]
      simp
  | hother n =>
    intro pref t h
    rw [build_tree_other] at h
    exact absurd h (by simp)
  | hdir n cs ih =>
    intro pref t h
    have hshape : ∃ nm p children, t = Node.dir nm p children := by
      rw [build_tree_dir] at h
      by_cases hex : should_exclude_dir n = true
      · rw [if_pos hex] at h; exact absurd h (by simp)
      · rw [if_neg hex] at h
        simp only at h
        by_cases hemp : ((sortEntries cs).filterMap
            (fun c => build_tree c (pref ++ [n]))).isEmpty = true
        · rw [if_pos hemp] at h; exact absurd h (by simp)
        · rw [if_neg hemp] at h; exact ⟨_, _, _, (Option.some.inj h).symm⟩
    obtain ⟨nm, p, children, rfl⟩ := hshape
    obtain ⟨cs', heq, hex, hch, hne, hp⟩ := build_dir_inv h
    obtain ⟨rfl, rfl⟩ := FSEntry.dir.inj heq
    rw [pathsOk, hp, pathsOkL_eq_all]
    simp only [beq_self_eq_true, Bool.true_and]
    rw [List.all_eq_true]
    intro c hc
    rw [hch] at hc
    obtain ⟨x, hx, hbx⟩ := List.mem_filterMap.mp hc
    exact ih x ((mem_sortByLE entryLE x cs).mp hx) hbx

/-- Every stored path extends the given directory components by the node's
own name and possibly more components. -/
theorem pathsOk_paths {t : Node} :
    ∀ {pref : List String}, pathsOk pref t = true →
      ∀ q ∈ allPaths t, ∃ rest, q = pathStr (pref ++ nodeName t :: rest) := by
  induction t using nodeRecMem with
  | hfile f =>
    intro pref h q hq
    rw [allPaths] at hq
    simp only [List.mem_singleton] at hq
    subst hq
    rw [pathsOk] at h
    exact ⟨[], by rw [nodeName]; exact eq_of_beq h⟩
  | hdir n p cs ih =>
    intro pref h q hq
    rw [pathsOk] at h
    simp only [Bool.and_eq_true, beq_iff_eq] at h
    obtain ⟨hpath, hrest⟩ := h
    rw [allPaths] at hq
    rcases List.mem_cons.mp hq with rfl | hq'
    · exact ⟨[], by rw [nodeName]; exact hpath⟩
    · obtain ⟨c, hc, hqc⟩ := mem_allPathsL.mp hq'
      rw [pathsOkL_eq_all, List.all_eq_true] at hrest
      obtain ⟨rest, hr⟩ := ih c hc (hrest c hc) q hqc
      refine ⟨nodeName c :: rest, ?_⟩
      rw [hr, nodeName, List.append_assoc]
      rfl

theorem pathStr_cons_hasPfx (x : String) (rest : List String) :
    strHasPfx x (pathStr (x :: rest)) = true := by
  rw [strHasPfx, List.isPrefixOf_iff_prefix]
  cases rest with
  | nil => rw [pathStr]
  | cons r rs =>
    rw [pathStr]
    have hdata : (x ++ "/" ++ pathStr (r :: rs)).data
        = x.data ++ ("/".data ++ (pathStr (r :: rs)).data) := by
      simp [List.append_assoc]
    rw [hdata]
    exact List.prefix_append _ _

theorem canonL_map (cs : List FSEntry) : canonL cs = cs.map canon := by
  induction cs with
  | nil => rfl
  | cons c rest ih => rw [canonL, ih, List.map_cons]

theorem canon_key (c : FSEntry) :
    entryIsFile (canon c) = entryIsFile c ∧ entryName (canon c) = entryName c := by
  cases c <;> exact ⟨rfl, rfl⟩

theorem entryLE_canon (a b : FSEntry) : entryLE (canon a) (canon b) = entryLE a b := by
  rw [entryLE, entryLE, (canon_key a).1, (canon_key a).2, (canon_key b).1, (canon_key b).2]

theorem keyEq_canon (a b : FSEntry) : keyEq (canon a) (canon b) = keyEq a b := by
  rw [keyEq, keyEq, (canon_key a).1, (canon_key a).2, (canon_key b).1, (canon_key b).2]

theorem keyEq_symm (a b : FSEntry) : keyEq a b = keyEq b a := by
  rw [keyEq, keyEq]
  cases ha : entryIsFile a <;> cases hb : entryIsFile b <;>
    cases hn : lowerStr (entryName a) == lowerStr (entryName b) <;>
    simp_all [BEq.comm]

theorem noDupKeys_iff_pairwise (l : List FSEntry) :
    noDupKeys l = true ↔ l.Pairwise (fun a b => keyEq a b = false) := by
  induction l with
  | nil => simp [noDupKeys]
  | cons c cs ih =>
    rw [noDupKeys]
    simp only [Bool.and_eq_true, Bool.not_eq_true', List.pairwise_cons, ih]
    constructor
    · rintro ⟨h1, h2⟩
      refine ⟨?_, h2⟩
      intro b hb
      by_contra hkb
      simp only [Bool.not_eq_false] at hkb
      have : cs.any (keyEq c) = true := List.any_eq_true.mpr ⟨b, hb, hkb⟩
      rw [h1] at this
      exact absurd this (by simp)
    · rintro ⟨h1, h2⟩
      refine ⟨?_, h2⟩
      by_contra hany
      simp only [Bool.not_eq_false] at hany
      obtain ⟨b, hb, hkb⟩ := List.any_eq_true.mp hany
      rw [h1 b hb] at hkb
      exact absurd hkb (by simp)

theorem keyEq_false_symm : Symmetric (fun a b : FSEntry => keyEq a b = false) := by
  intro a b hab
  rw [keyEq_symm]
  exact hab

theorem noDupKeys_of_perm {l₁ l₂ : List FSEntry} (h : List.Perm l₁ l₂)
    (h1 : noDupKeys l₁ = true) : noDupKeys l₂ = true := by
  rw [noDupKeys_iff_pairwise] at h1 ⊢
  exact (h.pairwise_iff (@keyEq_false_symm)).mp h1

theorem all_of_perm {l₁ l₂ : List α} (h : List.Perm l₁ l₂) (p : α → Bool) :
    l₁.all p = l₂.all p := by
  cases h1 : l₁.all p
  · cases h2 : l₂.all p
    · rfl
    · rw [List.all_eq_true] at h2
      have : l₁.all p = true := List.all_eq_true.mpr (fun x hx => h2 x (h.mem_iff.mp hx))
      rw [h1] at this; exact this
  · rw [List.all_eq_true] at h1
    exact (List.all_eq_true.mpr (fun x hx => h1 x (h.mem_iff.mpr hx))).symm

theorem distinctKeysL_eq_all (l : List FSEntry) :
    distinctKeysL l = l.all distinctKeys := by
  induction l with
  | nil => rfl
  | cons c cs ih => rw [distinctKeysL, List.all_cons, ih]

theorem strLE_antisymm {x y : String} (h1 : strLE x y = true) (h2 : strLE y x = true) :
    x = y := by
  rw [strLE] at h1 h2
  simp only [Bool.not_eq_true'] at h1 h2
  rcases strLT_tri x.data y.data with h | h | h
  · rw [h] at h2; exact absurd h2 (by simp)
  · rw [h] at h1; exact absurd h1 (by simp)
  · cases x with
    | mk xd =>
      cases y with
      | mk yd => simp only at h; rw [h]

theorem keyEq_of_entryLE_both {a b : FSEntry} (h1 : entryLE a b = true)
    (h2 : entryLE b a = true) : keyEq a b = true := by
  rw [entryLE] at h1 h2
  rw [keyEq]
  cases ha : entryIsFile a <;> cases hb : entryIsFile b <;>
      rw [ha, hb] at h1 h2 <;> simp_all
  · exact strLE_antisymm h1 h2
  · exact strLE_antisymm h1 h2

/-- Two sorted permutations of the same entries with pairwise distinct sort
keys are equal: ties are impossible, so the sorted order is unique. -/
theorem sorted_perm_eq : ∀ {l₁ l₂ : List FSEntry}, List.Perm l₁ l₂ →
    l₁.Pairwise (fun a b => entryLE a b = true) →
    l₂.Pairwise (fun a b => entryLE a b = true) →
    noDupKeys l₁ = true → l₁ = l₂ := by
  intro l₁
  induction l₁ with
  | nil =>
    intro l₂ hp _ _ _
    exact (List.Perm.nil_eq hp)
  | cons a t₁ ih =>
    intro l₂ hp hs1 hs2 hnd
    cases l₂ with
    | nil => exact absurd hp.eq_nil (by simp)
    | cons b t₂ =>
      have haeqb : a = b := by
        have ha2 : a ∈ b :: t₂ := hp.mem_iff.mp (List.mem_cons_self a t₁)
        have hb1 : b ∈ a :: t₁ := hp.mem_iff.mpr (List.mem_cons_self b t₂)
        rcases List.mem_cons.mp ha2 with h | h
        · exact h
        · rcases List.mem_cons.mp hb1 with h' | h'
          · exact h'.symm
          · have h1 : entryLE a b = true := (List.pairwise_cons.mp hs1).1 b h'
            have h2 : entryLE b a = true := (List.pairwise_cons.mp hs2).1 a h
            have hk : keyEq a b = true := keyEq_of_entryLE_both h1 h2
            rw [noDupKeys] at hnd
            simp only [Bool.and_eq_true, Bool.not_eq_true'] at hnd
            have hany : t₁.any (keyEq a) = true := List.any_eq_true.mpr ⟨b, h', hk⟩
            rw [hnd.1] at hany
            exact absurd hany (by simp)
      subst haeqb
      have hnd' : noDupKeys t₁ = true := by
        rw [noDupKeys] at hnd
        simp only [Bool.and_eq_true] at hnd
        exact hnd.2
      rw [ih hp.cons_inv (List.pairwise_cons.mp hs1).2 (List.pairwise_cons.mp hs2).2 hnd']

theorem sortEntries_eq_of_perm {l₁ l₂ : List FSEntry} (h : List.Perm l₁ l₂)
    (hnd : noDupKeys l₁ = true) : sortEntries l₁ = sortEntries l₂ := by
  apply sorted_perm_eq
  · exact (sortByLE_perm entryLE l₁).trans (h.trans (sortByLE_perm entryLE l₂).symm)
  · exact pairwise_sortByLE entryLE (fun a b c h1 h2 => entryLE_trans h1 h2) entryLE_total l₁
  · exact pairwise_sortByLE entryLE (fun a b c h1 h2 => entryLE_trans h1 h2) entryLE_total l₂
  · exact noDupKeys_of_perm (sortByLE_perm entryLE l₁).symm hnd

theorem filterMap_congr_mem {f g : α → Option β} {l : List α}
    (h : ∀ a ∈ l, f a = g a) : l.filterMap f = l.filterMap g := by
  induction l with
  | nil => rfl
  | cons a as ih =>
    rw [List.filterMap_cons, List.filterMap_cons, h a (List.mem_cons_self a as),
      ih (fun x hx => h x (List.mem_cons_of_mem a hx))]

/-- When every directory's listing has pairwise distinct sort keys,
scanning the canonical form gives exactly the same tree. -/
theorem build_tree_canon {e : FSEntry} :
    ∀ {pref : List String}, distinctKeys e = true →
      build_tree (canon e) pref = build_tree e pref := by
  induction e using fsEntryRecMem with
  | hfile d => intro pref _; rw [canon]
  | hother n => intro pref _; rw [canon]
  | hdir n cs ih =>
    intro pref hdk
    rw [distinctKeys] at hdk
    simp only [Bool.and_eq_true] at hdk
    obtain ⟨hnd, hdkL⟩ := hdk
    rw [canon, build_tree_dir, build_tree_dir]
    by_cases hex : should_exclude_dir n = true
    · rw [if_pos hex, if_pos hex]
    · rw [if_neg hex, if_neg hex]
      simp only
      have hchildren :
          (sortEntries (sortByLE encLE (canonL cs))).filterMap
              (fun c => build_tree c (pref ++ [n]))
            = (sortEntries cs).filterMap (fun c => build_tree c (pref ++ [n])) := by
        have hperm : List.Perm (sortByLE encLE (canonL cs)) (canonL cs) :=
          sortByLE_perm _ _
        have hndc : noDupKeys (sortByLE encLE (canonL cs)) = true := by
          apply noDupKeys_of_perm hperm.symm
          rw [canonL_map]
          rw [noDupKeys_iff_pairwise] at hnd ⊢
          rw [List.pairwise_map]
          exact hnd.imp (fun hab => by rw [keyEq_canon]; exact hab)
        have h1 : sortEntries (sortByLE encLE (canonL cs)) = sortEntries (canonL cs) :=
          sortEntries_eq_of_perm hperm hndc
        have h2 : sortEntries (canonL cs) = (sortEntries cs).map canon := by
          rw [canonL_map, sortEntries, sortEntries,
            sortByLE_map entryLE entryLE canon (fun a b => entryLE_canon a b)]
        rw [h1, h2, List.filterMap_map]
        apply filterMap_congr_mem
        intro x hx
        have hxcs : x ∈ cs := (mem_sortByLE entryLE x cs).mp hx
        have hdkx : distinctKeys x = true := by
          rw [distinctKeysL_eq_all, List.all_eq_true] at hdkL
          exact hdkL x hxcs
        simp only [Function.comp_apply]
        exact ih x hxcs hdkx
      rw [hchildren]

theorem includedL_eq_false_iff (cs : List FSEntry) :
    includedL cs = false ↔ ∀ c ∈ cs, included c = false := by
  rw [includedL_eq_any]
  simp [List.any_eq_false]

theorem fsTotalsL_zero {cs : List FSEntry} (h : ∀ c ∈ cs, fsTotals c = ⟨0, 0, 0, 0⟩) :
    fsTotalsL cs = ⟨0, 0, 0, 0⟩ := by
  induction cs with
  | nil => rfl
  | cons c rest ih =>
    rw [fsTotalsL, h c (List.mem_cons_self c rest),
      ih (fun x hx => h x (List.mem_cons_of_mem c hx))]
    simp

/-- An entry for which nothing is emitted contributes zero totals. -/
theorem fsTotals_zero {e : FSEntry} :
    included e = false → fsTotals e = ⟨0, 0, 0, 0⟩ := by
  induction e using fsEntryRecMem with
  | hfile d =>
    intro h
    rw [included] at h
    simp only [Bool.not_eq_false'] at h
    rw [fsTotals, if_pos h]
  | hother n => intro _; rw [fsTotals]
  | hdir n cs ih =>
    intro h
    rw [included] at h
    rw [fsTotals]
    by_cases hex : should_exclude_dir n = true
    · rw [if_pos hex]
    · rw [if_neg hex]
      have hexf : should_exclude_dir n = false := by
        cases hv : should_exclude_dir n
        · rfl
        · exact absurd hv hex
      rw [hexf, Bool.not_false, Bool.true_and] at h
      simp only [h, Bool.false_eq_true, if_false]
      exact fsTotalsL_zero (fun c hc =>
        ih c hc (((includedL_eq_false_iff cs).mp h) c hc))

theorem fsTotalsL_proj (cs : List FSEntry) :
    fsTotalsL cs = ⟨(cs.map (fun c => (fsTotals c).files)).sum,
      (cs.map (fun c => (fsTotals c).directories)).sum,
      (cs.map (fun c => (fsTotals c).lines)).sum,
      (cs.map (fun c => (fsTotals c).size)).sum⟩ := by
  induction cs with
  | nil => rfl
  | cons c rest ih => rw [fsTotalsL, ih]; simp

theorem fsTotalsL_files (cs : List FSEntry) :
    (fsTotalsL cs).files = (cs.map (fun c => (fsTotals c).files)).sum := by
  rw [fsTotalsL_proj]

theorem fsTotalsL_directories (cs : List FSEntry) :
    (fsTotalsL cs).directories = (cs.map (fun c => (fsTotals c).directories)).sum := by
  rw [fsTotalsL_proj]

theorem fsTotalsL_lines (cs : List FSEntry) :
    (fsTotalsL cs).lines = (cs.map (fun c => (fsTotals c).lines)).sum := by
  rw [fsTotalsL_proj]

theorem fsTotalsL_size (cs : List FSEntry) :
    (fsTotalsL cs).size = (cs.map (fun c => (fsTotals c).size)).sum := by
  rw [fsTotalsL_proj]

theorem map_congr_mem {f g : α → β} {l : List α} (h : ∀ a ∈ l, f a = g a) :
    l.map f = l.map g := by
  induction l with
  | nil => rfl
  | cons a as ih =>
    rw [List.map_cons, List.map_cons, h a (List.mem_cons_self a as),
      ih (fun x hx => h x (List.mem_cons_of_mem a hx))]

theorem sum_map_filterMap (g : α → Option β) (h : β → Nat) (l : List α) :
    ((l.filterMap g).map h).sum = (l.map (fun a => ((g a).map h).getD 0)).sum := by
  induction l with
  | nil => rfl
  | cons a as ih =>
    rw [List.filterMap_cons]
    cases hg : g a with
    | none => simp [hg, ih]
    | some b => simp [hg, ih]

theorem sortEntries_perm (cs : List FSEntry) : List.Perm (sortEntries cs) cs :=
  sortByLE_perm entryLE cs

/-- The totals of whatever `build_tree` emits equal the entry's `fsTotals`. -/
theorem optTotals_build {e : FSEntry} :
    ∀ (pref : List String), optTotals (build_tree e pref) = fsTotals e := by
  induction e using fsEntryRecMem with
  | hfile d =>
    intro pref
    rw [build_tree_file, fsTotals]
    by_cases hex : should_exclude_file d.name = true
    · rw [if_pos hex, if_pos hex]; rfl
    · rw [if_neg hex, if_neg hex]
      rw [optTotals, calculate_totals_spec]
      by_cases hl : should_count_lines d.name = true
      · rw [if_pos hl, if_pos hl]
        simp [countFiles, countDirs, sumLines, sumSize]
      · rw [if_neg hl, if_neg hl]
        simp [countFiles, countDirs, sumLines, sumSize]
  | hother n => intro pref; rw [build_tree_other, fsTotals]; rfl
  | hdir n cs ih =>
    intro pref
    rw [build_tree_dir, fsTotals]
    by_cases hex : should_exclude_dir n = true
    · rw [if_pos hex, if_pos hex]; rfl
    · rw [if_neg hex, if_neg hex]
      simp only
      by_cases hemp : ((sortEntries cs).filterMap
          (fun c => build_tree c (pref ++ [n]))).isEmpty = true
      · rw [if_pos hemp]
        have hincl : includedL cs = false := by
          rw [List.isEmpty_iff, List.filterMap_eq_nil_iff] at hemp
          rw [includedL_eq_false_iff]
          intro c hc
          have h2 := build_tree_isSome c (pref ++ [n])
          rw [hemp c ((mem_sortByLE entryLE c cs).mpr hc)] at h2
          simpa using h2.symm
        rw [hincl]
        simp only [Bool.false_eq_true, if_false]
        rw [optTotals]
        exact (fsTotalsL_zero (fun c hc =>
          fsTotals_zero ((includedL_eq_false_iff cs).mp hincl c hc))).symm
      · rw [if_neg hemp]
        have hincl : includedL cs = true := by
          have hne : ¬ ((sortEntries cs).filterMap
              (fun c => build_tree c (pref ++ [n])) = []) := by
            simpa [List.isEmpty_iff] using hemp
          obtain ⟨t, ht⟩ := List.exists_mem_of_ne_nil _ hne
          obtain ⟨x, hx, hbx⟩ := List.mem_filterMap.mp ht
          have hxin : x ∈ cs := (mem_sortByLE entryLE x cs).mp hx
          have hxi : included x = true := by
            have h2 := build_tree_isSome x (pref ++ [n])
            rw [hbx] at h2
            simpa using h2.symm
          rw [includedL_eq_any]
          exact List.any_eq_true.mpr ⟨x, hxin, hxi⟩
        rw [hincl]
        simp only [if_true]
        rw [optTotals, calculate_totals_spec]
        rw [countFiles, countDirs, sumLines, sumSize]
        have key : ∀ (F : Node → Nat) (proj : Totals → Nat),
            (∀ t : Node, proj (calculate_totals t) = F t) →
            proj ⟨0, 0, 0, 0⟩ = 0 →
            (((sortEntries cs).filterMap (fun c => build_tree c (pref ++ [n]))).map F).sum
              = (cs.map (fun c => proj (fsTotals c))).sum := by
          intro F proj hFP hproj0
          rw [sum_map_filterMap]
          rw [((sortEntries_perm cs).map
            (fun a => ((build_tree a (pref ++ [n])).map F).getD 0)).sum_eq]
          apply congrArg List.sum
          apply map_congr_mem
          intro c hc
          cases hb : build_tree c (pref ++ [n]) with
          | none =>
            have h0 : fsTotals c = ⟨0, 0, 0, 0⟩ := by
              have h2 := ih c hc (pref ++ [n])
              rw [hb] at h2
              rw [optTotals] at h2
              exact h2.symm
            simp [h0, hproj0]
          | some t =>
            have h2 := ih c hc (pref ++ [n])
            rw [hb, optTotals] at h2
            rw [← h2, hFP t]
            simp
        rw [countFilesL_eq_sum, countDirsL_eq_sum, sumLinesL_eq_sum, sumSizeL_eq_sum]
        rw [key countFiles Totals.files (fun t => by rw [calculate_totals_spec]) rfl]
        rw [key countDirs Totals.directories (fun t => by rw [calculate_totals_spec]) rfl]
        rw [key sumLines Totals.lines (fun t => by rw [calculate_totals_spec]) rfl]
        rw [key sumSize Totals.size (fun t => by rw [calculate_totals_spec]) rfl]
        rw [fsTotalsL_files, fsTotalsL_directories, fsTotalsL_lines, fsTotalsL_size]
        simp only [Totals.mk.injEq]
        exact ⟨trivial, Nat.add_comm 1 _, trivial, trivial⟩

theorem all_congr_mem {l : List α} {p q : α → Bool} (h : ∀ x ∈ l, p x = q x) :
    l.all p = l.all q := by
  induction l with
  | nil => rfl
  | cons a as ih =>
    simp only [List.all_cons, h a (List.mem_cons_self a as),
      ih (fun x hx => h x (List.mem_cons_of_mem a hx))]

theorem bool_eq_of_iff {a b : Bool} (h : a = true ↔ b = true) : a = b := by
  cases a <;> cases b <;> simp_all

/-- Canonicalizing the listing order does not change what is included. -/
theorem included_canon (e : FSEntry) : included (canon e) = included e := by
  induction e using fsEntryRecMem with
  | hfile d => rfl
  | hother n => rfl
  | hdir n cs ih =>
    rw [canon, included, included]
    have h : includedL (sortByLE encLE (canonL cs)) = includedL cs := by
      rw [includedL_eq_any, includedL_eq_any,
        any_of_perm (sortByLE_perm encLE (canonL cs)) included, canonL_map, List.any_map]
      exact any_congr_mem (fun c hc => by
        simp only [Function.comp_apply]
        exact ih c hc)
    rw [h]

/-- Canonicalizing the listing order does not change the totals. -/
theorem fsTotals_canon (e : FSEntry) : fsTotals (canon e) = fsTotals e := by
  induction e using fsEntryRecMem with
  | hfile d => rfl
  | hother n => rfl
  | hdir n cs ih =>
    rw [canon, fsTotals, fsTotals]
    by_cases hex : should_exclude_dir n = true
    · rw [if_pos hex, if_pos hex]
    · rw [if_neg hex, if_neg hex]
      simp only
      have hinc : includedL (sortByLE encLE (canonL cs)) = includedL cs := by
        rw [includedL_eq_any, includedL_eq_any,
          any_of_perm (sortByLE_perm encLE (canonL cs)) included, canonL_map, List.any_map]
        exact any_congr_mem (fun c hc => by
          simp only [Function.comp_apply]
          exact included_canon c)
      have hsum : ∀ (proj : Totals → Nat),
          ((sortByLE encLE (canonL cs)).map (fun c => proj (fsTotals c))).sum
            = (cs.map (fun c => proj (fsTotals c))).sum := by
        intro proj
        rw [((sortByLE_perm encLE (canonL cs)).map (fun c => proj (fsTotals c))).sum_eq,
          canonL_map, List.map_map]
        apply congrArg List.sum
        apply map_congr_mem
        intro c hc
        simp only [Function.comp_apply]
        rw [ih c hc]
      have hsub : fsTotalsL (sortByLE encLE (canonL cs)) = fsTotalsL cs := by
        rw [fsTotalsL_proj, fsTotalsL_proj, hsum Totals.files, hsum Totals.directories,
          hsum Totals.lines, hsum Totals.size]
      rw [hinc, hsub]

/-- Canonicalizing the listing order does not change key distinctness. -/
theorem distinctKeys_canon (e : FSEntry) : distinctKeys (canon e) = distinctKeys e := by
  induction e using fsEntryRecMem with
  | hfile d => rfl
  | hother n => rfl
  | hdir n cs ih =>
    rw [canon, distinctKeys, distinctKeys]
    have h1 : noDupKeys (sortByLE encLE (canonL cs)) = noDupKeys cs := by
      apply bool_eq_of_iff
      constructor
      · intro h
        have h2 : noDupKeys (canonL cs) = true :=
          noDupKeys_of_perm (sortByLE_perm encLE (canonL cs)) h
        rw [canonL_map, noDupKeys_iff_pairwise, List.pairwise_map] at h2
        rw [noDupKeys_iff_pairwise]
        exact h2.imp (fun hab => by rw [keyEq_canon] at hab; exact hab)
      · intro h
        apply noDupKeys_of_perm (sortByLE_perm encLE (canonL cs)).symm
        rw [canonL_map, noDupKeys_iff_pairwise, List.pairwise_map]
        rw [noDupKeys_iff_pairwise] at h
        exact h.imp (fun hab => by rw [keyEq_canon]; exact hab)
    have h2 : distinctKeysL (sortByLE encLE (canonL cs)) = distinctKeysL cs := by
      rw [distinctKeysL_eq_all, distinctKeysL_eq_all,
        all_of_perm (sortByLE_perm encLE (canonL cs)) distinctKeys, canonL_map, List.all_map]
      exact all_congr_mem (fun c hc => by
        simp only [Function.comp_apply]
        exact ih c hc)
    rw [h1, h2]

/-- The children of every emitted directory node are pairwise ordered:
directories before files, case-insensitive ascending names within each
group. -/
theorem children_pairwise {e : FSEntry} {pref : List String} {t : Node}
    (h : build_tree e pref = some t) :
    ∀ s ∈ subtrees t, ∀ nm p cs, s = .dir nm p cs → List.Pairwise nodeRel cs := by
  intro s hs nm p cs hseq
  subst hseq
  obtain ⟨e', pref', hb⟩ := emitted_subtree h _ hs
  obtain ⟨cs', heq, hex, hch, hne, hp⟩ := build_dir_inv hb
  rw [hch]
  have htransfer : ∀ a b x y, entryLE a b = true →
      build_tree a (pref' ++ [nm]) = some x → build_tree b (pref' ++ [nm]) = some y →
      nodeRel x y := by
    intro a b x y hab ha hbb
    obtain ⟨hxf, hxn⟩ := build_key ha
    obtain ⟨hyf, hyn⟩ := build_key hbb
    rw [entryLE] at hab
    refine ⟨?_, ?_⟩
    · intro hx
      rw [hxf] at hx
      rw [hyf]
      cases hfb : entryIsFile b
      · rw [hx, hfb] at hab
        simp at hab
      · rfl
    · intro hxy
      rw [hxf, hyf] at hxy
      rw [hxy] at hab
      simp only [beq_self_eq_true, if_true] at hab
      rw [hxn, hyn]
      exact hab
  exact pairwise_filterMap _ htransfer
    (pairwise_sortByLE entryLE (fun a b c h1 h2 => entryLE_trans h1 h2) entryLE_total cs')

/-- Claim C1: for every tree, `calculate_totals` returns exactly the number
of file nodes, the number of directory nodes, the sum of the `lines` fields
of all file nodes (absent treated as 0), and the sum of their `size`
fields; and the result is unchanged under reversing every children list
(traversal order does not matter: it is a pure summation). -/
theorem claim_C1 (t : Node) :
    calculate_totals t = ⟨countFiles t, countDirs t, sumLines t, sumSize t⟩
    ∧ calculate_totals (revNode t) = calculate_totals t := by
  refine ⟨calculate_totals_spec t, ?_⟩
  have h := measures_rev t
  rw [calculate_totals_spec, calculate_totals_spec, h.1, h.2.1, h.2.2.1, h.2.2.2]

/-- Claim C2: in every emitted tree, a file node carries a (non-negative
integer) `lines` field exactly when its name is in the fixed extensionless
set `LINE_COUNT_FILES` or its lowercased suffix is in
`LINE_COUNT_EXTENSIONS`; otherwise the field is absent. -/
theorem claim_C2 (e : FSEntry) (pref : List String) (t : Node)
    (h : build_tree e pref = some t) :
    ∀ f ∈ filesOf t, f.lines.isSome
      = (LINE_COUNT_FILES.contains f.name
          || LINE_COUNT_EXTENSIONS.contains (lowerStr (suffix f.name))) := by
  intro f hf
  have hsub : Node.file f ∈ subtrees t := file_mem_subtrees.mp hf
  obtain ⟨e', pref', hb⟩ := emitted_subtree h _ hsub
  obtain ⟨d, rfl, hex, hfeq⟩ := build_file_inv hb
  rw [hfeq]
  simp only
  have hrfl : (LINE_COUNT_FILES.contains d.name
      || LINE_COUNT_EXTENSIONS.contains (lowerStr (suffix d.name)))
      = should_count_lines d.name := rfl
  rw [hrfl]
  by_cases hl : should_count_lines d.name = true
  · simp [hl]
  · have hlf : should_count_lines d.name = false := by
      cases hv : should_count_lines d.name
      · rfl
      · exact absurd hv hl
    simp [hlf]

theorem claim_C2_witness :
    build_tree exC2 [] = some exC2tree ∧
    ∀ f ∈ filesOf exC2tree, f.lines.isSome
      = (LINE_COUNT_FILES.contains f.name
          || LINE_COUNT_EXTENSIONS.contains (lowerStr (suffix f.name))) :=
  ⟨rfl, claim_C2 exC2 [] exC2tree rfl⟩

/-- Claim C3: a directory all of whose entries yield nothing (in particular
an empty directory) yields nothing itself -- the pruning propagates upward
-- and consequently no emitted directory node ever has an empty children
list. -/
theorem claim_C3 :
    (∀ (n : String) (cs : List FSEntry) (pref : List String),
      (∀ c ∈ cs, build_tree c (pref ++ [n]) = none) →
        build_tree (.dir n cs) pref = none)
    ∧ (∀ (e : FSEntry) (pref : List String) (t : Node), build_tree e pref = some t →
        ∀ s ∈ subtrees t, ∀ nm p cs, s = .dir nm p cs → cs ≠ []) := by
  refine ⟨?_, ?_⟩
  · intro n cs pref hall
    rw [build_tree_dir]
    by_cases hex : should_exclude_dir n = true
    · rw [if_pos hex]
    · rw [if_neg hex]
      simp only
      have hemp : ((sortEntries cs).filterMap
          (fun c => build_tree c (pref ++ [n]))).isEmpty = true := by
        rw [List.isEmpty_iff, List.filterMap_eq_nil_iff]
        intro c hc
        exact hall c ((mem_sortByLE entryLE c cs).mp hc)
      rw [if_pos hemp]
  · intro e pref t h s hs nm p cs hseq
    subst hseq
    obtain ⟨e', pref', hb⟩ := emitted_subtree h _ hs
    obtain ⟨cs', heq, hex, hch, hne, hp⟩ := build_dir_inv hb
    exact hne

theorem claim_C3_witness :
    build_tree exC3 [] = none ∧
    (∀ s ∈ subtrees exC3tree, ∀ nm p cs, s = .dir nm p cs → cs ≠ []) := by
  refine ⟨?_, ?_⟩
  · exact claim_C3.1 "subC3" [exC3excl] []
      (fun c hc => by
        rw [List.mem_singleton] at hc
        subst hc
        rfl)
  · exact claim_C3.2 exC3good [] exC3tree rfl

/-- Claim C4: in every emitted tree, each directory node's children are
ordered with all directory nodes before all file nodes, and within each of
the two groups in ascending case-insensitive name order. -/
theorem claim_C4 (e : FSEntry) (pref : List String) (t : Node)
    (h : build_tree e pref = some t) :
    ∀ s ∈ subtrees t, ∀ nm p cs, s = .dir nm p cs → List.Pairwise nodeRel cs :=
  children_pairwise h

theorem claim_C4_witness :
    build_tree exC4 [] = some exC4tree ∧
    (∀ s ∈ subtrees exC4tree, ∀ nm p cs, s = .dir nm p cs → List.Pairwise nodeRel cs) :=
  ⟨rfl, claim_C4 exC4 [] exC4tree rfl⟩

/-- Claim C5 (amended): for a readable file matching the line-count policy,
the stored `lines` value is the number of lines yielded by iterating the
decoded text: the number of line terminators, plus one when the non-empty
text does not end with a terminator (the final unterminated segment IS
counted, unlike what the original claim says). -/
theorem claim_C5 (d : FileData) (pref : List String) (s : String) (f : FileNode)
    (hc : d.content = some s)
    (hp : should_count_lines d.name = true)
    (h : build_tree (.file d) pref = some (.file f)) :
    f.lines = some (s.data.count '\n' +
      (match s.data.getLast? with
       | some c => if c = '\n' then 0 else 1
       | none => 0)) := by
  obtain ⟨d', heq, hex, hfeq⟩ := build_file_inv h
  obtain rfl := FSEntry.file.inj heq
  rw [hfeq]
  simp only
  rw [if_pos hp, hc, count_lines_eq]

theorem claim_C5_counterexample :
    build_tree (.file ⟨"c5a.py", some "abc", some 3⟩) []
      = some (.file ⟨"c5a.py", "c5a.py", 3, ".py", iconStr 0x1F40D, some 1⟩)
    ∧ ("abc" : String).data.count '\n' = 0 ∧ (1 : Nat) ≠ 0 :=
  ⟨rfl, by decide, by decide⟩

theorem claim_C5_witness :
    build_tree (.file exC5w) [] = some (.file exC5wnode)
    ∧ exC5wnode.lines = some (("x\ny" : String).data.count '\n' +
        (match ("x\ny" : String).data.getLast? with
         | some c => if c = '\n' then 0 else 1
         | none => 0)) := by
  refine ⟨rfl, ?_⟩
  exact claim_C5 exC5w [] "x\ny" exC5wnode rfl rfl rfl

/-- Claim C6: per-file read and stat failures never propagate: a
non-excluded file whose read and stat both fail is still emitted, with
`size` 0 and (when the line-count policy applies) `lines` 0; and failures
never change the exit status. -/
theorem claim_C6 :
    (∀ (name : String) (pref : List String), should_exclude_file name = false →
      build_tree (.file ⟨name, none, none⟩) pref
        = some (.file ⟨name, pathStr (pref ++ [name]), 0, lowerStr (suffix name),
            get_file_icon name, if should_count_lines name then some 0 else none⟩))
    ∧ (∀ e : FSEntry, mainExit (scrub e) = mainExit e) := by
  refine ⟨?_, mainExit_scrub⟩
  intro name pref hex
  rw [build_tree_file, hex]
  by_cases hl : should_count_lines name = true
  · simp [hl, count_lines]
  · simp [hl, count_lines]

theorem claim_C6_witness :
    should_exclude_file "w.py" = false
    ∧ build_tree (.file ⟨"w.py", none, none⟩) []
        = some (.file ⟨"w.py", "w.py", 0, ".py", iconStr 0x1F40D, some 0⟩)
    ∧ mainExit (scrub exC6) = mainExit exC6 := by
  refine ⟨by decide, ?_, claim_C6.2 exC6⟩
  exact (claim_C6.1 "w.py" [] (by decide)).trans rfl

/-- Claim C7: every stored path is relative to the parent of the scan
root: the `path` of each node is the `'/'`-join of the name components
from the root downward, so every stored path starts with the root entry's
own name. -/
theorem claim_C7 (e : FSEntry) (t : Node) (h : build_tree e [] = some t) :
    pathsOk [] t = true
    ∧ ∀ q ∈ allPaths t,
        (∃ rest, q = pathStr (entryName e :: rest))
        ∧ strHasPfx (entryName e) q = true := by
  have hok := build_pathsOk h
  refine ⟨hok, ?_⟩
  intro q hq
  obtain ⟨rest, hr⟩ := pathsOk_paths hok q hq
  rw [List.nil_append] at hr
  have hname : nodeName t = entryName e := (build_key h).2
  rw [hname] at hr
  exact ⟨⟨rest, hr⟩, by rw [hr]; exact pathStr_cons_hasPfx _ _⟩

theorem claim_C7_witness :
    build_tree exC7 [] = some exC7tree
    ∧ pathsOk [] exC7tree = true
    ∧ ∀ q ∈ allPaths exC7tree,
        (∃ rest, q = pathStr (entryName exC7 :: rest))
        ∧ strHasPfx (entryName exC7) q = true := by
  obtain ⟨h1, h2⟩ := claim_C7 exC7 exC7tree rfl
  exact ⟨rfl, h1, h2⟩

/-- Claim C8 (amended): scanning two enumerations of the same directory
content (equal canonical forms) always produces identical totals, and
identical trees provided no directory lists two entries with the same sort
key `(is_file, name.lower())`; with tied keys the stable sort preserves the
enumeration order, so the trees may differ. -/
theorem claim_C8 (e₁ e₂ : FSEntry) (pref : List String) (h : canon e₁ = canon e₂) :
    Option.map calculate_totals (build_tree e₁ pref)
      = Option.map calculate_totals (build_tree e₂ pref)
    ∧ (distinctKeys e₁ = true → build_tree e₁ pref = build_tree e₂ pref) := by
  constructor
  · have hf : fsTotals e₁ = fsTotals e₂ := by
      rw [← fsTotals_canon e₁, ← fsTotals_canon e₂, h]
    have hi : included e₁ = included e₂ := by
      rw [← included_canon e₁, ← included_canon e₂, h]
    have ht1 := @optTotals_build e₁ pref
    have ht2 := @optTotals_build e₂ pref
    have hs1 := build_tree_isSome e₁ pref
    have hs2 := build_tree_isSome e₂ pref
    cases hb1 : build_tree e₁ pref with
    | none =>
      cases hb2 : build_tree e₂ pref with
      | none => rfl
      | some t₂ =>
        exfalso
        rw [hb1] at hs1
        rw [hb2] at hs2
        have h1f : included e₁ = false := by rw [← hs1]; rfl
        have h2t : included e₂ = true := by rw [← hs2]; rfl
        rw [h1f, h2t] at hi
        exact absurd hi (by decide)
    | some t₁ =>
      cases hb2 : build_tree e₂ pref with
      | none =>
        exfalso
        rw [hb1] at hs1
        rw [hb2] at hs2
        have h1t : included e₁ = true := by rw [← hs1]; rfl
        have h2f : included e₂ = false := by rw [← hs2]; rfl
        rw [h1t, h2f] at hi
        exact absurd hi (by decide)
      | some t₂ =>
        rw [hb1] at ht1
        rw [hb2] at ht2
        rw [optTotals] at ht1 ht2
        simp only [Option.map_some']
        rw [ht1, ht2, hf]
  · intro hdk
    have hdk2 : distinctKeys e₂ = true := by
      rw [← distinctKeys_canon e₂, ← h, distinctKeys_canon e₁]
      exact hdk
    calc build_tree e₁ pref = build_tree (canon e₁) pref := (build_tree_canon hdk).symm
      _ = build_tree (canon e₂) pref := by rw [h]
      _ = build_tree e₂ pref := build_tree_canon hdk2

theorem claim_C8_counterexample :
    canon cexC8a = canon cexC8b ∧ build_tree cexC8a [] ≠ build_tree cexC8b [] := by
  refine ⟨rfl, ?_⟩
  intro h
  have h1 : firstChildName (build_tree cexC8a []) = "A.py" := rfl
  have h2 : firstChildName (build_tree cexC8b []) = "a.py" := rfl
  rw [h] at h1
  rw [h2] at h1
  exact absurd h1 (by decide)

theorem claim_C8_witness :
    canon exC8w1 = canon exC8w2
    ∧ Option.map calculate_totals (build_tree exC8w1 [])
        = Option.map calculate_totals (build_tree exC8w2 [])
    ∧ build_tree exC8w1 [] = build_tree exC8w2 [] := by
  obtain ⟨h1, h2⟩ := claim_C8 exC8w1 exC8w2 [] rfl
  exact ⟨rfl, h1, h2 rfl⟩

/-- Claim C9: every emitted directory node transitively contains at least
one file node, and whenever a tree is emitted at all, `totals.files` is at
least 1. -/
theorem claim_C9 (e : FSEntry) (pref : List String) (t : Node)
    (h : build_tree e pref = some t) :
    (∀ s ∈ subtrees t, ∀ nm p cs, s = .dir nm p cs → 1 ≤ countFiles s)
    ∧ 1 ≤ (calculate_totals t).files := by
  constructor
  · intro s hs nm p cs hseq
    obtain ⟨e', pref', hb⟩ := emitted_subtree h _ hs
    exact countFiles_pos hb
  · rw [calculate_totals_spec]
    exact countFiles_pos h

theorem claim_C9_witness :
    build_tree exC9 [] = some exC9tree
    ∧ (∀ s ∈ subtrees exC9tree, ∀ nm p cs, s = .dir nm p cs → 1 ≤ countFiles s)
    ∧ 1 ≤ (calculate_totals exC9tree).files := by
  obtain ⟨h1, h2⟩ := claim_C9 exC9 [] exC9tree rfl
  exact ⟨rfl, h1, h2⟩

/-- Claim C10: all extension-based decisions are case-insensitive on the
suffix: icon lookup, the binary-extension exclusion component, and the
extension component of the line-count policy depend only on the lowercased
suffix, and every emitted file node records the lowercased suffix in its
`extension` field (so `MAIN.PY` is treated exactly like a `.py` file). -/
theorem claim_C10 :
    (∀ n₁ n₂ : String, lowerStr (suffix n₁) = lowerStr (suffix n₂) →
      get_file_icon n₁ = get_file_icon n₂
      ∧ (EXCLUDE_FILES.contains n₁ = false → EXCLUDE_FILES.contains n₂ = false →
          should_exclude_file n₁ = should_exclude_file n₂)
      ∧ (LINE_COUNT_FILES.contains n₁ = false → LINE_COUNT_FILES.contains n₂ = false →
          should_count_lines n₁ = should_count_lines n₂))
    ∧ (∀ (d : FileData) (pref : List String) (f : FileNode),
        build_tree (.file d) pref = some (.file f) →
          f.extension = lowerStr (suffix d.name)) := by
  constructor
  · intro n₁ n₂ hsuf
    refine ⟨?_, ?_, ?_⟩
    · rw [get_file_icon, get_file_icon, hsuf]
    · intro h1 h2
      rw [should_exclude_file, should_exclude_file, h1, h2, hsuf]
    · intro h1 h2
      rw [should_count_lines, should_count_lines, h1, h2, hsuf]
  · intro d pref f h
    obtain ⟨d', heq, hex, hfeq⟩ := build_file_inv h
    obtain rfl := FSEntry.file.inj heq
    rw [hfeq]

theorem claim_C10_witness :
    lowerStr (suffix "MAIN.PY") = lowerStr (suffix "main.py")
    ∧ get_file_icon "MAIN.PY" = get_file_icon "main.py"
    ∧ should_count_lines "MAIN.PY" = should_count_lines "main.py"
    ∧ should_exclude_file "MAIN.PY" = should_exclude_file "main.py"
    ∧ build_tree (.file exC10) [] = some (.file exC10node)
    ∧ exC10node.extension = lowerStr (suffix "MAIN.PY") := by
  obtain ⟨ha, hb⟩ := claim_C10
  obtain ⟨h1, h2, h3⟩ := ha "MAIN.PY" "main.py" rfl
  exact ⟨rfl, h1, h3 (by decide) (by decide), h2 (by decide) (by decide), rfl,
    hb exC10 [] exC10node rfl⟩
